import Mathlib

/-!
Verification of the LME molecular-structure composition engine.

This file gives a shallow embedding of the core data structures and
operations of the repository (`src/sparse_molecule.rs`, `src/substituent.rs`,
`src/workflow/runner.rs`, `src/workflow/step.rs`, `workflow/src/main.rs`)
and proves or refutes the specified properties about them.

Modelling conventions:
* Rust `usize` is modelled as `Nat`; the places where `usize` arithmetic can
  underflow or indexing can panic are modelled explicitly (`Option`-valued
  results, `none` = panic).
* `f64` values that are only stored, copied and compared are modelled as `ℚ`
  (positions, bond orders); the rigid-body geometry of the substituent
  transform, which genuinely computes with square roots and arc-cosines, is
  modelled over `ℝ` in a separate section.
* Code of the repository that is not part of the given sources
  (`chemistry.rs`, `layer.rs`, `workspace.rs`) is modelled from the
  specification; each such definition carries a doc comment starting with
  `Modelled from the spec:`.
-/

/-- Modelled from the spec: `validated_element_num` (`chemistry.rs`, not under
`src/`). The spec says an atomic number is an integer 1..118 and an atom whose
atomic number fails `validated_element_num` is treated as a hole. -/
def validated_element_num (n : Nat) : Bool :=
  1 ≤ n && n ≤ 118

/-- The `Atom3D` from `chemistry.rs`: atomic number plus a 3-D position.  The
`f64` coordinates are modelled as rationals; none of the list-level
operations below computes with them. -/
structure Atom3D where
  element : Nat
  position : ℚ × ℚ × ℚ
deriving DecidableEq, Repr

/-- The `SparseAtomList` (`sparse_molecule.rs` line 20): a vector of optional
atoms. -/
structure SparseAtomList where
  val : List (Option Atom3D)
deriving DecidableEq, Repr

/-- Whether an optional cell holds a present atom with a valid element
number; this is the predicate `|item| item.map(validated_element_num).unwrap_or_default()`
used throughout `sparse_molecule.rs`. -/
def presentValid (o : Option Atom3D) : Bool :=
  (o.map fun a => validated_element_num a.element).getD false

namespace SparseAtomList

/-- The `len` (`sparse_molecule.rs` lines 76-78). -/
def len (l : SparseAtomList) : Nat := l.val.length

/-- The `extend_to` (`sparse_molecule.rs` lines 80-86): pad with holes up to
`capacity`. -/
def extend_to (l : SparseAtomList) (capacity : Nat) : SparseAtomList :=
  if l.len < capacity then ⟨l.val ++ List.replicate (capacity - l.len) none⟩ else l

/-- The `offset` (`sparse_molecule.rs` lines 88-90): prepend `offset` holes. -/
def offset (l : SparseAtomList) (n : Nat) : SparseAtomList :=
  ⟨List.replicate n none ++ l.val⟩

/-- The `read_atom` (`sparse_molecule.rs` lines 92-94):
`self.0.get(index).copied().unwrap_or_default()`; out of range reads a hole. -/
def read_atom (l : SparseAtomList) (index : Nat) : Option Atom3D :=
  (l.val[index]?).getD none

/-- The `set_atoms` (`sparse_molecule.rs` lines 96-102).  The Rust source
computes `len_after_set = (offset + atoms.len() - 1).max(self.len())` in
`usize` arithmetic and then assigns `self.0[idx + offset] = atom` through the
panicking index operator; both panic sources are modelled, `none` standing
for a panic. -/
def set_atoms (l : SparseAtomList) (offset : Nat) (atoms : List (Option Atom3D)) :
    Option SparseAtomList :=
  if offset + atoms.length = 0 then
    none  -- usize underflow in `offset + atoms.len() - 1`
  else
    let len_after_set := max (offset + atoms.length - 1) l.len
    let l₁ := l.extend_to len_after_set
    atoms.enum.foldl
      (fun acc p =>
        acc.bind fun cur =>
          if p.1 + offset < cur.len then some ⟨cur.val.set (p.1 + offset) p.2⟩
          else none)  -- index out of bounds in `self.0[idx + offset]`
      (some l₁)

/-- The `migrate` (`sparse_molecule.rs` lines 116-123): extend to the larger
length, then cell-wise `other.read_atom(index).or(*atom)`. -/
def migrate (l other : SparseAtomList) : SparseAtomList :=
  let l₁ := l.extend_to (max l.len other.len)
  ⟨l₁.val.mapIdx fun index atom => (other.read_atom index).or atom⟩

/-- The `to_continuous_index` (`sparse_molecule.rs` lines 143-162). -/
def to_continuous_index (l : SparseAtomList) (index : Nat) : Option Nat :=
  if presentValid (l.read_atom index) then
    some ((l.val.take index).countP presentValid)
  else
    none

/-- The `from_continuous_index` (`sparse_molecule.rs` lines 164-175). -/
def from_continuous_index (l : SparseAtomList) (index : Nat) : Option Nat :=
  ((((l.val.enum).filter fun p => presentValid p.2).take (index + 1)).getLast?).map
    Prod.fst

/-- Sparse index of the last present-and-valid atom of the list, if any;
used to state what `from_continuous_index` returns for an exhausted
continuous index. -/
def lastValidIndex (l : SparseAtomList) : Option Nat :=
  (((l.val.enum).filter fun p => presentValid p.2).getLast?).map Prod.fst

/-- Number of present-and-valid atoms of the list. -/
def numValid (l : SparseAtomList) : Nat :=
  l.val.countP presentValid

end SparseAtomList

/-- The `SparseBondMatrix` (`sparse_molecule.rs` line 179): a vector of rows of
optional bond orders; `f64` orders modelled as `ℚ`. -/
structure SparseBondMatrix where
  val : List (List (Option ℚ))
deriving DecidableEq, Repr

namespace SparseBondMatrix

/-- The `new` (`sparse_molecule.rs` lines 182-184). -/
def new (capacity : Nat) : SparseBondMatrix :=
  ⟨List.replicate capacity (List.replicate capacity none)⟩

/-- The `new_filled` (`sparse_molecule.rs` lines 186-188). -/
def new_filled (capacity : Nat) : SparseBondMatrix :=
  ⟨List.replicate capacity (List.replicate capacity (some 0))⟩

/-- The `len` (`sparse_molecule.rs` lines 190-192). -/
def len (m : SparseBondMatrix) : Nat := m.val.length

/-- The `extend_to` (`sparse_molecule.rs` lines 194-203): pad every existing row
and append fresh all-`None` rows. -/
def extend_to (m : SparseBondMatrix) (capacity : Nat) : SparseBondMatrix :=
  if m.len < capacity then
    ⟨(m.val.map fun row => row ++ List.replicate (capacity - m.len) none) ++
      List.replicate (capacity - m.len) (List.replicate capacity none)⟩
  else m

/-- The `offset` (`sparse_molecule.rs` lines 205-214): prepend `offset` blank
rows and prefix every existing row with `offset` blanks. -/
def offset (m : SparseBondMatrix) (n : Nat) : SparseBondMatrix :=
  ⟨List.replicate n (List.replicate (n + m.len) none) ++
    m.val.map fun row => List.replicate n none ++ row⟩

/-- The `read_bond` (`sparse_molecule.rs` lines 216-218):
`self.0.get(a)?.get(b).copied().flatten()`. -/
def read_bond (m : SparseBondMatrix) (a b : Nat) : Option ℚ :=
  ((m.val[a]?).bind fun row => row[b]?).join

/-- The `get_neighbors` (`sparse_molecule.rs` lines 220-222): the full row of the
given center, if it exists. -/
def get_neighbors (m : SparseBondMatrix) (center : Nat) : Option (List (Option ℚ)) :=
  m.val[center]?

/-- The `set_bond` (`sparse_molecule.rs` lines 224-228): extend to
`max(a,b) + 1`, then write both `[a][b]` and `[b][a]`.  After the extension
both indexes are in range, so the `getD` defaults are never reached. -/
def set_bond (m : SparseBondMatrix) (a b : Nat) (bond : Option ℚ) : SparseBondMatrix :=
  let m₁ := m.extend_to (max a b + 1)
  let m₂ : SparseBondMatrix := ⟨m₁.val.set a ((m₁.val.getD a []).set b bond)⟩
  ⟨m₂.val.set b ((m₂.val.getD b []).set a bond)⟩

/-- The `migrate` (`sparse_molecule.rs` lines 230-239): for every pair
`(row, col)` with `row ≤ col < other.len()`, merge `other`'s bond over the
current one with `Option::or` and `set_bond` it. -/
def migrate (m other : SparseBondMatrix) : SparseBondMatrix :=
  (List.range other.len).foldl
    (fun acc row_idx =>
      (List.range' row_idx (other.len - row_idx)).foldl
        (fun acc col_idx =>
          acc.set_bond row_idx col_idx
            ((other.read_bond row_idx col_idx).or (acc.read_bond row_idx col_idx)))
        acc)
    m

/-- The `From<Iterator>` construction (`sparse_molecule.rs` lines 263-276):
`new` with capacity the maximum coordinate (`unwrap_or_default`, no `+ 1`),
then `set_bond` every listed bond. -/
def ofBonds (bonds : List ((Nat × Nat) × ℚ)) : SparseBondMatrix :=
  let capacity := ((bonds.map fun p => max p.1.1 p.1.2).max?).getD 0
  bonds.foldl (fun acc p => acc.set_bond p.1.1 p.1.2 (some p.2)) (new capacity)

/-- The bond-wiring loop of `Substituent::generate_layer`
(`substituent.rs` lines 100-115): snapshot the neighbor row of `center`,
then `set_bond(entry, index, bond)` for every `(index, bond)` of its
enumeration. -/
def wire_entry_bonds (m : SparseBondMatrix) (entry center : Nat) : SparseBondMatrix :=
  let neighbors := m.val.getD center []
  neighbors.enum.foldl (fun acc p => acc.set_bond entry p.1 p.2) m

/-- A matrix every row of which has length equal to the number of rows.  All
constructors keep matrices square; squareness is what makes the direct
`self.0[a][b]` indexing of `set_bond` well defined. -/
def Square (m : SparseBondMatrix) : Prop :=
  ∀ row ∈ m.val, row.length = m.len

instance : DecidablePred Square := fun m =>
  decidable_of_iff (∀ row ∈ m.val, row.length = m.len) Iff.rfl

/-- The bond matrices reachable through the public operations of
`SparseBondMatrix`. -/
inductive Reachable : SparseBondMatrix → Prop
  | new (capacity : Nat) : Reachable (new capacity)
  | new_filled (capacity : Nat) : Reachable (new_filled capacity)
  | set_bond {m : SparseBondMatrix} (a b : Nat) (bond : Option ℚ) :
      Reachable m → Reachable (m.set_bond a b bond)
  | migrate {m other : SparseBondMatrix} :
      Reachable m → Reachable other → Reachable (m.migrate other)
  | offset {m : SparseBondMatrix} (n : Nat) : Reachable m → Reachable (m.offset n)
  | ofBonds (bonds : List ((Nat × Nat) × ℚ)) : Reachable (ofBonds bonds)

end SparseBondMatrix

namespace SparseBondMatrix

/-- The combined invariant carried through every public operation:
squareness plus symmetry of `read_bond`. -/
def Inv (m : SparseBondMatrix) : Prop :=
  m.Square ∧ ∀ a b, m.read_bond a b = m.read_bond b a

end SparseBondMatrix

/-- The `MoleculeLayer` (`molecule_layer.rs`, not under `src/`; the spec gives
its shape): atoms, bonds, named atom ids, named groups and a title.  The two
map-like fields are modelled as association lists; none of the verified
operations inspects them beyond carrying them along. -/
structure MoleculeLayer where
  atoms : SparseAtomList
  bonds : SparseBondMatrix
  ids : List (String × Nat)
  groups : List (String × Nat)
  title : String

/-- Modelled from the spec: the `StructuralError` taxonomy of §7
(`layer.rs` is not under `src/`). -/
inductive StructuralError
  | UnknownSelector
  | RangeOutOfBounds
  | CapacityUnderflow

/-- The `LayerStorageError` (`workspace.rs`, not under `src/`; the spec gives
`{ NoSuchLayer | FilterError }`). -/
inductive LayerStorageError
  | NoSuchLayer (id : Nat)
  | FilterError (e : StructuralError)

/-- Modelled from the spec: a stored `Layer` is an edit operation over a
`MoleculeLayer`, i.e. a pure function that may fail with a structural error
(`layer.rs` is not under `src/`; only its `filter` action matters here). -/
def Layer : Type :=
  MoleculeLayer → Except StructuralError MoleculeLayer

/-- Modelled from the spec: `LayerStorage` (`workspace.rs`, not under
`src/`) is an insert-only store of layers keyed by opaque contiguous integer
ids; the id of a layer is its position in the store. -/
structure LayerStorage where
  layers : List Layer

/-- Modelled from the spec: `read_layer(id)` returns the stored layer or
nothing. -/
def LayerStorage.read_layer (st : LayerStorage) (id : Nat) : Option Layer :=
  st.layers[id]?

/-- The recursion of `cached_read_stack` (`src/workflow/runner.rs` lines
218-234) on the reversed path: `split_last` on the path yields its last
element first.  The memoization wrapper is value-transparent and is not
modelled. -/
def read_stack_rev (base : MoleculeLayer) (storage : LayerStorage) :
    List Nat → Except LayerStorageError MoleculeLayer
  | [] => .ok base
  | last :: heads =>
    match storage.read_layer last with
    | none => .error (.NoSuchLayer last)
    | some layer =>
      match read_stack_rev base storage heads with
      | .error e => .error e
      | .ok lower_result => (layer lower_result).mapError .FilterError

/-- The `cached_read_stack` (`src/workflow/runner.rs` lines 218-234): if the
path splits as `heads ++ [last]`, look up `last`, materialize `heads`, then
apply the layer; the empty path materializes to the base. -/
def read_stack (base : MoleculeLayer) (storage : LayerStorage) (stack_path : List Nat) :
    Except LayerStorageError MoleculeLayer :=
  read_stack_rev base storage stack_path.reverse

/-- The `RunnerOutput` as consumed by `Step::execute`
(`src/workflow/step.rs` lines 34-49): a replacement window, a family of
named windows, or nothing.  The concrete window type is not determined by
the sources under `src/`, so it is a type parameter. -/
inductive RunnerOutputS (Win : Type)
  | SingleWindow (w : Win)
  | MultiWindow (named : List (String × Win))
  | NoOutput

/-- The workflow state touched by `Step::execute`
(`src/workflow/workflow_data.rs` lines 8-15): the base molecule, the layer
storage, the stored stacks, the named windows and the current window. -/
structure WorkflowDataS (Win : Type) where
  base : MoleculeLayer
  layers : LayerStorage
  «stacks» : List (List Nat)
  windows : List (String × Win)
  current_window : Win

/-- The `BTreeMap::insert` on an association list keyed by `String`: replace the
binding if the key is present, append it otherwise. -/
def winsert {Win : Type} (key : String) (value : Win) (m : List (String × Win)) :
    List (String × Win) :=
  if m.any fun p => p.1 = key then
    m.map fun p => if p.1 = key then (key, value) else p
  else
    m ++ [(key, value)]

/-- The `Step::execute` (`src/workflow/step.rs` lines 19-61).  The runner call of
line 29 is abstracted as the function `run` from the resolved window and the
layer storage to a runner output and the updated storage; `emptyW`/`extendW`
stand for `BTreeMap::new`/`BTreeMap::extend` on the window type. -/
def step_execute {Win : Type} (emptyW : Win) (extendW : Win → Win → Win)
    (stepFrom stepName : Option String) (index : Nat)
    (run : MoleculeLayer → Win → LayerStorage → Except String (RunnerOutputS Win × LayerStorage))
    (wd : WorkflowDataS Win) : Except String (WorkflowDataS Win) :=
  match (match stepFrom with
    | none => Except.ok wd
    | some fr =>
      match wd.windows.lookup fr with
      | none => Except.error ("Failed to load window with name " ++ fr)
      | some window => Except.ok { wd with current_window := window }) with
  | .error e => .error e
  | .ok wd₁ =>
    match run wd₁.base wd₁.current_window wd₁.layers with
    | .error e => .error e
    | .ok (generated_stacks, layers') =>
      let wd₂ := { wd₁ with layers := layers' }
      let wd₃ :=
        match generated_stacks with
        | .SingleWindow generated => { wd₂ with current_window := generated }
        | .MultiWindow named_stacks =>
          let pfx := stepName.getD (toString index)
          named_stacks.foldl
            (fun acc p =>
              { acc with
                current_window := extendW acc.current_window p.2
                windows := winsert (pfx ++ "_" ++ p.1) p.2 acc.windows })
            { wd₂ with current_window := emptyW }
        | .NoOutput => wd₂
      match stepName with
      | none => Except.ok wd₃
      | some name =>
        Except.ok { wd₃ with windows := winsert name wd₃.current_window wd₃.windows }

/-- The `WorkflowCheckPoint` (`workflow/src/input_data.rs`, not under `src/`;
shape forced by its uses in `workflow/src/main.rs`): the number of steps to
skip plus the saved workflow data. -/
structure CheckPointS (W : Type) where
  skip : Nat
  workflow_data : W

/-- Rust's `str::parse::<usize>` as used on the skip-file content: a
non-empty all-digit string parses to the denoted number, anything else is an
error (the optional `+` sign Rust also accepts is irrelevant here). -/
def parse_usize (s : String) : Option Nat :=
  if s.data ≠ [] ∧ s.data.all Char.isDigit then
    some (s.data.foldl (fun n c => n * 10 + (c.toNat - '0'.toNat)) 0)
  else none

/-- The `load_checkpoint` (`workflow/src/main.rs` lines 70-100).  `skipFile` is
the content of `lme_workflow.chk.skip` if that file opens, `dataFile` is the
decoded `lme_workflow.chk.data` if it opens, decompresses and deserializes
(these I/O layers are collapsed into the `Option`).  A missing skip file
returns cleanly (`.ok()?`); every later failure is an `unwrap` panic,
modelled as `.error` with the panic context message. -/
def load_checkpoint {W : Type} (skipFile : Option String) (dataFile : Option W) :
    Except String (Option (CheckPointS W)) :=
  match skipFile with
  | none => .ok none
  | some content =>
    match parse_usize content with
    | none => .error ("Unable to parse skip steps in lme_workflow.chk.skip")
    | some skip =>
      match dataFile with
      | none => .error ("lme_workflow.chk.skip existed but lme_workflow.chk.data not found")
      | some w => .ok (some { skip := skip, workflow_data := w })

/-- The startup selection of `main` (`workflow/src/main.rs` lines 25-30):
resume from the checkpoint when `load_checkpoint` returns one, otherwise
start fresh with skip 0 and `WorkflowData::new(input.base)` (the latter is
not under `src/` and is passed in as `newData`). -/
def workflow_startup {W : Type} (newData : W) (skipFile : Option String)
    (dataFile : Option W) : Except String (Nat × W) :=
  (load_checkpoint skipFile dataFile).map fun checkpoint =>
    match checkpoint with
    | some cp => (cp.skip, cp.workflow_data)
    | none => (0, newData)

/-- The step iteration of `main` (`workflow/src/main.rs` line 37):
`input.steps.into_iter().enumerate().skip(skip)`. -/
def mainLoopSteps {σ : Type} (steps : List σ) (skip : Nat) : List (Nat × σ) :=
  steps.enum.drop skip

/-! The rigid-body transform of `Substituent::generate_layer`
(`substituent.rs` lines 46-99).  The `f64` vector arithmetic of `nalgebra`
is modelled over `ℝ`; `Vector3` is a real triple. -/

/-- A 3-D vector. -/
abbrev Vec3 : Type := ℝ × ℝ × ℝ

namespace Vec3

def add (u v : Vec3) : Vec3 := (u.1 + v.1, u.2.1 + v.2.1, u.2.2 + v.2.2)

def sub (u v : Vec3) : Vec3 := (u.1 - v.1, u.2.1 - v.2.1, u.2.2 - v.2.2)

noncomputable def smul (c : ℝ) (v : Vec3) : Vec3 := (c * v.1, c * v.2.1, c * v.2.2)

noncomputable def dot (u v : Vec3) : ℝ := u.1 * v.1 + u.2.1 * v.2.1 + u.2.2 * v.2.2

noncomputable def cross (u v : Vec3) : Vec3 :=
  (u.2.1 * v.2.2 - u.2.2 * v.2.1,
   u.2.2 * v.1 - u.1 * v.2.2,
   u.1 * v.2.1 - u.2.1 * v.1)

/-- The `nalgebra` vector norm. -/
noncomputable def norm (v : Vec3) : ℝ := Real.sqrt (dot v v)

/-- The `Unit::new_normalize`: divide by the norm. -/
noncomputable def normalize (v : Vec3) : Vec3 := smul (norm v)⁻¹ v

/-- The `Vector3::x()`. -/
def e₁ : Vec3 := (1, 0, 0)

/-- The rotation by `angle` around the unit axis `k` (Rodrigues' formula);
this is the action of `UnitQuaternion::new(angle * axis)` for a unit
`axis`. -/
noncomputable def rotate (k : Vec3) (angle : ℝ) (v : Vec3) : Vec3 :=
  add (add (smul (Real.cos angle) v) (smul (Real.sin angle) (cross k v)))
    (smul ((1 - Real.cos angle) * dot k v) k)

end Vec3

/-- The axis chosen at `substituent.rs` lines 66-71: `b × a`, replaced by
`x̂` when its norm is exactly `0`, then normalized. -/
noncomputable def substAxis (b a : Vec3) : Vec3 :=
  Vec3.normalize (if Vec3.norm (Vec3.cross b a) = 0 then Vec3.e₁ else Vec3.cross b a)

/-- The angle chosen at `substituent.rs` lines 72-73:
`acos(b·a / (‖a‖‖b‖))`, with the NaN fallback to `π`.  Over `ℝ` the `f64`
`acos` produces NaN exactly when `‖a‖ * ‖b‖ = 0` (the quotient is then NaN
or infinite; otherwise Cauchy-Schwarz keeps it in `[-1, 1]`), so the
fallback is modelled by that condition. -/
noncomputable def substAngle (b a : Vec3) : ℝ :=
  if Vec3.norm a * Vec3.norm b = 0 then Real.pi
  else Real.arccos (Vec3.dot b a / (Vec3.norm a * Vec3.norm b))

/-- The full position transform applied to every substituent atom at
`substituent.rs` lines 74-84: translate by `-substituent_direction`, rotate,
translate back, then translate by `target_exit - substituent_direction`.
`target_entry`, `target_exit`, `sd` (direction) and `so` (on_body) are the
positions of the four designated atoms. -/
noncomputable def substTransform (target_entry target_exit sd so : Vec3) (p : Vec3) : Vec3 :=
  let a := Vec3.sub target_exit target_entry
  let b := Vec3.sub sd so
  let k := substAxis b a
  let angle := substAngle b a
  let p₁ := Vec3.sub p sd
  let p₂ := Vec3.rotate k angle p₁
  let p₃ := Vec3.add p₂ sd
  Vec3.add p₃ (Vec3.sub target_exit sd)

/-! Helper lemmas. -/

@[simp] theorem SparseAtomList.len_mk (xs : List (Option Atom3D)) :
    (SparseAtomList.mk xs).len = xs.length := rfl

@[simp] theorem SparseAtomList.val_mk (xs : List (Option Atom3D)) :
    (SparseAtomList.mk xs).val = xs := rfl

theorem SparseAtomList.len_def (l : SparseAtomList) : l.len = l.val.length := rfl

theorem SparseAtomList.len_extend_to (l : SparseAtomList) (c : Nat) :
    (l.extend_to c).len = max l.len c := by
  unfold extend_to
  split
  case isTrue h =>
    simp only [len_mk, List.length_append, List.length_replicate, len_def] at *
    omega
  case isFalse h =>
    simp only [len_def] at *
    omega

theorem SparseAtomList.getElem?_extend_to (l : SparseAtomList) (c i : Nat) :
    (l.extend_to c).val[i]? =
      if i < l.len then l.val[i]?
      else if i < max l.len c then some none else none := by
  unfold extend_to
  simp only [len_def]
  split
  case isTrue h =>
    simp only [val_mk, List.getElem?_append, List.getElem?_replicate]
    by_cases h₁ : i < l.val.length
    · rw [if_pos h₁, if_pos h₁]
    · by_cases h₂ : i < max l.val.length c
      · rw [if_neg h₁, if_pos (show i - l.val.length < c - l.val.length by omega),
          if_neg h₁, if_pos h₂]
      · rw [if_neg h₁, if_neg (show ¬i - l.val.length < c - l.val.length by omega),
          if_neg h₁, if_neg h₂]
  case isFalse h =>
    by_cases h₁ : i < l.val.length
    · rw [if_pos h₁]
    · rw [if_neg h₁, if_neg (show ¬i < max l.val.length c by omega),
        List.getElem?_eq_none (by omega)]

theorem SparseAtomList.read_atom_eq_none_of_le (l : SparseAtomList) (i : Nat)
    (h : l.len ≤ i) : l.read_atom i = none := by
  unfold read_atom
  rw [List.getElem?_eq_none h]
  rfl

/-- C1: materializing a stack is the fold of the base through the layers in
path order: the empty path gives the base, and `xs ++ [last]` looks up the
layer `last` (a missing id aborts with `NoSuchLayer`), materializes `xs`,
and applies the layer (a failing application aborts with `FilterError`). -/
theorem read_stack_fold_spec (base : MoleculeLayer) (storage : LayerStorage) :
    read_stack base storage [] = .ok base ∧
    ∀ (xs : List Nat) (lastId : Nat),
      read_stack base storage (xs ++ [lastId]) =
        match storage.read_layer lastId with
        | none => .error (.NoSuchLayer lastId)
        | some layer =>
          match read_stack base storage xs with
          | .error e => .error e
          | .ok lower_result => (layer lower_result).mapError .FilterError := by
  refine ⟨rfl, fun xs lastId => ?_⟩
  simp only [read_stack, List.reverse_append, List.reverse_singleton,
    List.singleton_append, read_stack_rev]

/-- C2: `migrate` extends to the longer length and, cell by cell, prefers
`other`'s atom when present (valid or not) and keeps the old atom
otherwise. -/
theorem SparseAtomList.migrate_spec (l other : SparseAtomList) :
    (l.migrate other).len = max l.len other.len ∧
    (∀ i, (l.migrate other).read_atom i = (other.read_atom i).or (l.read_atom i)) ∧
    (∀ i a, other.read_atom i = some a → (l.migrate other).read_atom i = some a) := by
  have hlen : (l.migrate other).len = max l.len other.len := by
    simp only [migrate, len_mk, List.length_mapIdx]
    rw [← len_def, len_extend_to]
    omega
  have hread : ∀ i, (l.migrate other).read_atom i = (other.read_atom i).or (l.read_atom i) := by
    intro i
    simp only [migrate, read_atom, val_mk, List.getElem?_mapIdx, getElem?_extend_to]
    rw [show max l.len (max l.len other.len) = max l.len other.len by omega]
    by_cases h₁ : i < l.len
    · rw [if_pos h₁]
      cases hv : l.val[i]? with
      | none =>
        exact absurd (List.getElem?_eq_none_iff.mp hv)
          (by simp only [len_def] at h₁; omega)
      | some v => simp
    · rw [if_neg h₁]
      have hl : l.val[i]? = none :=
        List.getElem?_eq_none (by simp only [len_def] at h₁; omega)
      by_cases h₂ : i < max l.len other.len
      · rw [if_pos h₂, hl]
        simp
      · rw [if_neg h₂, hl]
        have ho : other.val[i]? = none :=
          List.getElem?_eq_none (by simp only [len_def] at h₂; omega)
        simp [read_atom, ho]
  refine ⟨hlen, hread, fun i a ha => ?_⟩
  rw [hread i, ha]
  rfl

/-- C4: `set_atoms` on an empty list at offset `0` with one atom to write.
The source computes the capacity to extend to as
`(offset + atoms.len() - 1).max(self.len())` — one cell short of the
`offset + atoms.len()` the write loop needs — so `self.0[0]` indexes out of
bounds and the call panics (`none`) instead of extending with holes and
writing. -/
theorem set_atoms_panics_on_extending_write :
    SparseAtomList.set_atoms ⟨[]⟩ 0 [some ⟨6, (0, 0, 0)⟩] = none := by
  decide

theorem getLast?_cons_of_getLast? {α : Type} (a y : α) (l : List α)
    (h : l.getLast? = some y) : (a :: l).getLast? = some y := by
  cases l with
  | nil => simp at h
  | cons b t => rw [List.getLast?_cons_cons]; exact h

/-- The `(k+1)`-st present-and-valid entry of the enumerated list (counting
from `n`) is found at the position of the `i`-th cell whenever the `i`-th
cell satisfies the predicate and `k` of the cells before it do. -/
theorem enumFrom_filter_take_getLast {α : Type} (p : α → Bool) :
    ∀ (xs : List α) (n i : Nat) (c : α), xs[i]? = some c → p c = true →
      ((((List.enumFrom n xs).filter fun q => p q.2).take
          ((xs.take i).countP p + 1)).getLast?) = some (n + i, c) := by
  intro xs
  induction xs with
  | nil => intro n i c hc _; simp at hc
  | cons x t ih =>
    intro n i c hc hp
    cases i with
    | zero =>
      rw [List.getElem?_cons_zero, Option.some.injEq] at hc
      subst hc
      simp [List.filter_cons_of_pos, hp]
    | succ j =>
      rw [List.getElem?_cons_succ] at hc
      rw [List.take_succ_cons]
      by_cases hx : p x = true
      · rw [List.countP_cons_of_pos _ _ hx,
          show List.enumFrom n (x :: t) = (n, x) :: List.enumFrom (n + 1) t from rfl,
          List.filter_cons_of_pos (by simpa using hx), List.take_succ_cons]
        apply getLast?_cons_of_getLast?
        rw [show n + (j + 1) = n + 1 + j by omega]
        exact ih (n + 1) j c hc hp
      · have hx' : p x = false := by simpa using hx
        rw [List.countP_cons_of_neg _ _ (by simp [hx']),
          show List.enumFrom n (x :: t) = (n, x) :: List.enumFrom (n + 1) t from rfl,
          List.filter_cons_of_neg (by simp [hx']),
          show n + (j + 1) = n + 1 + j by omega]
        exact ih (n + 1) j c hc hp

/-- C5: on a present-and-valid position the continuous index exists and the
`to → from` round trip is the identity; `to_continuous_index` is `none`
exactly on the absent-or-invalid positions. -/
theorem to_from_continuous_round_trip (l : SparseAtomList) (i : Nat) :
    (l.to_continuous_index i = none ↔ presentValid (l.read_atom i) = false) ∧
    (presentValid (l.read_atom i) = true →
      ∃ k, l.to_continuous_index i = some k ∧ l.from_continuous_index k = some i) := by
  constructor
  · unfold SparseAtomList.to_continuous_index
    by_cases h : presentValid (l.read_atom i) = true
    · simp [h]
    · simp [Bool.not_eq_true] at h
      simp [h]
  · intro h
    refine ⟨(l.val.take i).countP presentValid, ?_, ?_⟩
    · unfold SparseAtomList.to_continuous_index
      rw [if_pos h]
    · cases hv : l.val[i]? with
      | none =>
        rw [SparseAtomList.read_atom, hv] at h
        simp [presentValid] at h
      | some c =>
        have hc : presentValid c = true := by
          rw [SparseAtomList.read_atom, hv] at h
          exact h
        unfold SparseAtomList.from_continuous_index
        rw [show l.val.enum = List.enumFrom 0 l.val from rfl,
          enumFrom_filter_take_getLast presentValid l.val 0 i c hv hc]
        simp

/-- The number of present-and-valid cells equals the length of the filtered
enumeration used by `from_continuous_index`. -/
theorem length_filter_enum_eq_numValid (l : SparseAtomList) :
    ((l.val.enum.filter fun q => presentValid q.2).length) = l.numValid := by
  rw [← List.countP_eq_length_filter, SparseAtomList.numValid]
  conv_rhs => rw [← List.enum_map_snd l.val]
  rw [List.countP_map]
  rfl

/-- C9: once the continuous index reaches past the present-and-valid atoms,
`from_continuous_index` saturates to the sparse index of the last
present-and-valid atom, and it is `none` exactly when the list has no
present-and-valid atom at all. -/
theorem from_continuous_index_saturates (l : SparseAtomList) (k : Nat) :
    (l.numValid ≤ k → l.from_continuous_index k = l.lastValidIndex) ∧
    (l.from_continuous_index k = none ↔ l.numValid = 0) := by
  constructor
  · intro h
    unfold SparseAtomList.from_continuous_index SparseAtomList.lastValidIndex
    rw [List.take_of_length_le (by rw [length_filter_enum_eq_numValid]; omega)]
  · unfold SparseAtomList.from_continuous_index
    rw [Option.map_eq_none', List.getLast?_eq_none_iff, List.take_eq_nil_iff,
      ← length_filter_enum_eq_numValid, List.length_eq_zero]
    constructor
    · rintro (h | h)
      · omega
      · exact h
    · intro h
      exact Or.inr h

/-! Lemmas about `SparseBondMatrix`. -/

namespace SparseBondMatrix

@[simp] theorem bondVal_mk (xs : List (List (Option ℚ))) :
    (SparseBondMatrix.mk xs).val = xs := rfl

@[simp] theorem bondLen_mk (xs : List (List (Option ℚ))) :
    (SparseBondMatrix.mk xs).len = xs.length := rfl

theorem bondLen_def (m : SparseBondMatrix) : m.len = m.val.length := rfl

/-- How `read_bond` sees a stored row. -/
theorem read_bond_def (m : SparseBondMatrix) (a b : Nat) :
    m.read_bond a b = ((m.val[a]?).bind fun row => row[b]?).join := rfl

theorem square_new (n : Nat) : (new n).Square := by
  intro row hrow
  simp only [new, bondVal_mk, bondLen_mk, List.length_replicate] at *
  exact (List.eq_of_mem_replicate hrow) ▸ List.length_replicate ..

theorem square_new_filled (n : Nat) : (new_filled n).Square := by
  intro row hrow
  simp only [new_filled, bondVal_mk, bondLen_mk, List.length_replicate] at *
  exact (List.eq_of_mem_replicate hrow) ▸ List.length_replicate ..

theorem bondLen_extend_to (m : SparseBondMatrix) (c : Nat) :
    (m.extend_to c).len = max m.len c := by
  unfold extend_to
  split
  case isTrue h =>
    simp only [bondLen_mk, List.length_append, List.length_map, List.length_replicate, bondLen_def] at *
    omega
  case isFalse h =>
    simp only [bondLen_def] at *
    omega

theorem square_extend_to {m : SparseBondMatrix} (hm : m.Square) (c : Nat) :
    (m.extend_to c).Square := by
  intro row hrow
  rw [bondLen_extend_to]
  unfold extend_to at hrow
  split at hrow
  case isTrue h =>
    simp only [bondVal_mk, List.mem_append, List.mem_map] at hrow
    rcases hrow with ⟨r, hr, rfl⟩ | hrow
    · rw [List.length_append, List.length_replicate, hm r hr, bondLen_def]
      omega
    · rw [List.eq_of_mem_replicate hrow, List.length_replicate]
      omega
  case isFalse h =>
    rw [hm row hrow]
    omega

theorem read_extend_to (m : SparseBondMatrix) (c a b : Nat) :
    (m.extend_to c).read_bond a b = m.read_bond a b := by
  unfold extend_to
  split
  case isFalse h => rfl
  case isTrue h =>
    rw [read_bond_def, read_bond_def, bondVal_mk]
    simp only [bondLen_def] at h
    rw [List.getElem?_append]
    simp only [List.length_map]
    by_cases ha : a < m.val.length
    · rw [if_pos ha, List.getElem?_map]
      cases hv : m.val[a]? with
      | none => exact absurd (List.getElem?_eq_none_iff.mp hv) (by omega)
      | some row =>
        simp only [Option.map_some', Option.some_bind]
        rw [List.getElem?_append]
        by_cases hb : b < row.length
        · rw [if_pos hb]
        · rw [if_neg hb, List.getElem?_replicate,
            List.getElem?_eq_none (show row.length ≤ b by omega)]
          split <;> rfl
    · rw [if_neg ha, List.getElem?_replicate,
        List.getElem?_eq_none (show m.val.length ≤ a by omega)]
      simp only [Option.none_bind]
      split
      · simp only [Option.some_bind]
        rw [List.getElem?_replicate]
        split <;> rfl
      · rfl

theorem length_getD_of_square {m : SparseBondMatrix} (hm : m.Square) {a : Nat}
    (ha : a < m.len) : (m.val.getD a []).length = m.len := by
  cases hv : m.val[a]? with
  | none =>
    exact absurd (List.getElem?_eq_none_iff.mp hv) (by rw [bondLen_def] at ha; omega)
  | some row =>
    rw [List.getD_eq_getElem?_getD, hv]
    exact hm row (List.getElem?_mem hv)

theorem getD_eq_of_getElem? {m : SparseBondMatrix} {a : Nat} {row : List (Option ℚ)}
    (h : m.val[a]? = some row) : m.val.getD a [] = row := by
  rw [List.getD_eq_getElem?_getD, h]
  rfl

theorem len_set_bond (m : SparseBondMatrix) (a b : Nat) (v : Option ℚ) :
    (m.set_bond a b v).len = max m.len (max a b + 1) := by
  unfold set_bond
  simp only [bondLen_mk, bondVal_mk, List.length_set, ← bondLen_def, bondLen_extend_to]

theorem square_set_bond {m : SparseBondMatrix} (hm : m.Square) (a b : Nat)
    (v : Option ℚ) : (m.set_bond a b v).Square := by
  have hm₁ : (m.extend_to (max a b + 1)).Square := square_extend_to hm _
  have ha : a < (m.extend_to (max a b + 1)).len := by rw [bondLen_extend_to]; omega
  have hb : b < (m.extend_to (max a b + 1)).len := by rw [bondLen_extend_to]; omega
  have hrowA : (((m.extend_to (max a b + 1)).val.getD a []).set b v).length
      = (m.extend_to (max a b + 1)).len := by
    rw [List.length_set]
    exact length_getD_of_square hm₁ ha
  have hm₂ : (SparseBondMatrix.mk ((m.extend_to (max a b + 1)).val.set a
      (((m.extend_to (max a b + 1)).val.getD a []).set b v))).Square := by
    intro row hrow
    simp only [bondVal_mk, bondLen_mk, List.length_set]
    rcases List.mem_or_eq_of_mem_set hrow with hrow | rfl
    · rw [hm₁ row hrow]; rfl
    · rw [hrowA]; rfl
  have hb₂ : b < (SparseBondMatrix.mk ((m.extend_to (max a b + 1)).val.set a
      (((m.extend_to (max a b + 1)).val.getD a []).set b v))).len := by
    simp only [bondLen_mk, List.length_set]
    rw [← bondLen_def]
    exact hb
  intro row hrow
  unfold set_bond at hrow ⊢
  simp only [bondVal_mk, bondLen_mk, List.length_set] at hrow ⊢
  rcases List.mem_or_eq_of_mem_set hrow with hrow | rfl
  · simpa only [bondLen_mk, List.length_set] using hm₂ row hrow
  · rw [List.length_set]
    simpa only [bondVal_mk, bondLen_mk, List.length_set] using length_getD_of_square hm₂ hb₂

theorem read_bond_mk_of_getElem? {rows : List (List (Option ℚ))} {x : Nat}
    {r : List (Option ℚ)} (h : rows[x]? = some r) (y : Nat) :
    (SparseBondMatrix.mk rows).read_bond x y = (r[y]?).join := by
  rw [read_bond_def, bondVal_mk, h]
  rfl

theorem read_bond_mk_of_none {rows : List (List (Option ℚ))} {x : Nat}
    (h : rows[x]? = none) (y : Nat) :
    (SparseBondMatrix.mk rows).read_bond x y = none := by
  rw [read_bond_def, bondVal_mk, h]
  rfl

theorem read_bond_of_row {m : SparseBondMatrix} {x : Nat} {r : List (Option ℚ)}
    (h : m.val[x]? = some r) (y : Nat) : m.read_bond x y = (r[y]?).join := by
  rw [read_bond_def, h]
  rfl

/-- Cell-level characterization of the double row update performed by
`set_bond` on an already-extended square matrix: the cells `(a,b)` and
`(b,a)` now read `v`, every other cell is unchanged. -/
theorem read_set_cells {M : List (List (Option ℚ))}
    (hsq : ∀ row ∈ M, row.length = M.length) {a b : Nat}
    (ha : a < M.length) (hb : b < M.length) (v : Option ℚ) (x y : Nat) :
    (SparseBondMatrix.mk ((M.set a ((M.getD a []).set b v)).set b
        (((M.set a ((M.getD a []).set b v)).getD b []).set a v))).read_bond x y =
      if (x = a ∧ y = b) ∨ (x = b ∧ y = a) then v
      else (SparseBondMatrix.mk M).read_bond x y := by
  obtain ⟨rowA, hvA⟩ : ∃ row, M[a]? = some row := by
    cases hv : M[a]? with
    | none => exact absurd (List.getElem?_eq_none_iff.mp hv) (by omega)
    | some row => exact ⟨row, rfl⟩
  have hgA : M.getD a [] = rowA := by rw [List.getD_eq_getElem?_getD, hvA]; rfl
  have hrowAlen : rowA.length = M.length := hsq rowA (List.getElem?_mem hvA)
  rw [hgA]
  by_cases hab : a = b
  · subst hab
    have hgB : (M.set a (rowA.set a v)).getD a [] = rowA.set a v := by
      rw [List.getD_eq_getElem?_getD, List.getElem?_set_self ha]
      rfl
    rw [hgB, List.set_set, List.set_set]
    by_cases hxa : x = a
    · subst hxa
      rw [read_bond_mk_of_getElem? (List.getElem?_set_self ha)]
      by_cases hya : y = x
      · subst hya
        rw [List.getElem?_set_self (by rw [hrowAlen]; exact ha),
          if_pos (Or.inl ⟨rfl, rfl⟩)]
        rfl
      · rw [List.getElem?_set_ne (fun hh => hya hh.symm),
          if_neg (by rintro (⟨h1, h2⟩ | ⟨h1, h2⟩) <;> exact hya h2),
          read_bond_mk_of_getElem? hvA]
    · rw [read_bond_def, bondVal_mk, List.getElem?_set_ne (fun hh => hxa hh.symm),
        if_neg (by rintro (⟨h1, h2⟩ | ⟨h1, h2⟩) <;> exact hxa h1),
        read_bond_def, bondVal_mk]
  · obtain ⟨rowBo, hvB⟩ : ∃ row, M[b]? = some row := by
      cases hv : M[b]? with
      | none => exact absurd (List.getElem?_eq_none_iff.mp hv) (by omega)
      | some row => exact ⟨row, rfl⟩
    have hrowBlen : rowBo.length = M.length := hsq rowBo (List.getElem?_mem hvB)
    have hgB : (M.set a (rowA.set b v)).getD b [] = rowBo := by
      rw [List.getD_eq_getElem?_getD, List.getElem?_set_ne hab, hvB]
      rfl
    rw [hgB]
    by_cases hxb : x = b
    · subst hxb
      rw [read_bond_mk_of_getElem?
        (List.getElem?_set_self (by rw [List.length_set]; exact hb))]
      by_cases hya : y = a
      · subst hya
        rw [List.getElem?_set_self (by rw [hrowBlen]; exact ha),
          if_pos (Or.inr ⟨rfl, rfl⟩)]
        rfl
      · rw [List.getElem?_set_ne (fun hh => hya hh.symm),
          if_neg (by
            rintro (⟨h1, h2⟩ | ⟨h1, h2⟩)
            · exact hab h1.symm
            · exact hya h2),
          read_bond_mk_of_getElem? hvB]
    · by_cases hxa : x = a
      · subst hxa
        rw [read_bond_mk_of_getElem? (show ((M.set x (rowA.set b v)).set b
            (rowBo.set x v))[x]? = some (rowA.set b v) by
          rw [List.getElem?_set_ne (fun hh => hxb hh.symm), List.getElem?_set_self ha])]
        by_cases hyb : y = b
        · subst hyb
          rw [List.getElem?_set_self (by rw [hrowAlen]; exact hb),
            if_pos (Or.inl ⟨rfl, rfl⟩)]
          rfl
        · rw [List.getElem?_set_ne (fun hh => hyb hh.symm),
            if_neg (by
              rintro (⟨h1, h2⟩ | ⟨h1, h2⟩)
              · exact hyb h2
              · exact hxb h1),
            read_bond_mk_of_getElem? hvA]
      · rw [read_bond_def, bondVal_mk, List.getElem?_set_ne (fun hh => hxb hh.symm),
          List.getElem?_set_ne (fun hh => hxa hh.symm),
          if_neg (by
            rintro (⟨h1, h2⟩ | ⟨h1, h2⟩)
            · exact hxa h1
            · exact hxb h1),
          read_bond_def, bondVal_mk]

theorem read_set_bond {m : SparseBondMatrix} (hm : m.Square) (a b : Nat)
    (v : Option ℚ) (x y : Nat) :
    (m.set_bond a b v).read_bond x y =
      if (x = a ∧ y = b) ∨ (x = b ∧ y = a) then v else m.read_bond x y := by
  have hsq : ∀ row ∈ (m.extend_to (max a b + 1)).val,
      row.length = (m.extend_to (max a b + 1)).val.length := fun row h =>
    square_extend_to hm _ row h
  have ha : a < (m.extend_to (max a b + 1)).val.length := by
    rw [← bondLen_def, bondLen_extend_to]; omega
  have hb : b < (m.extend_to (max a b + 1)).val.length := by
    rw [← bondLen_def, bondLen_extend_to]; omega
  have h := read_set_cells hsq ha hb v x y
  rw [show SparseBondMatrix.mk (m.extend_to (max a b + 1)).val
      = m.extend_to (max a b + 1) from rfl, read_extend_to] at h
  exact h

theorem inv_set_bond {m : SparseBondMatrix} (h : m.Inv) (a b : Nat) (v : Option ℚ) :
    (m.set_bond a b v).Inv := by
  refine ⟨square_set_bond h.1 a b v, fun x y => ?_⟩
  rw [read_set_bond h.1, read_set_bond h.1]
  by_cases hc : (x = a ∧ y = b) ∨ (x = b ∧ y = a)
  · rw [if_pos hc, if_pos (by tauto)]
  · rw [if_neg hc, if_neg (by tauto), h.2 x y]

/-- Any fold whose step is a `set_bond` (with an arbitrary, state-dependent
value) preserves the invariant. -/
theorem inv_foldl {α : Type} (av : SparseBondMatrix → α → Nat)
    (bv : SparseBondMatrix → α → Nat) (vv : SparseBondMatrix → α → Option ℚ) :
    ∀ (xs : List α) (m : SparseBondMatrix), m.Inv →
      (xs.foldl (fun acc q => acc.set_bond (av acc q) (bv acc q) (vv acc q)) m).Inv := by
  intro xs
  induction xs with
  | nil => intro m h; exact h
  | cons q t ih =>
    intro m h
    exact ih _ (inv_set_bond h _ _ _)

theorem inv_new (n : Nat) : (new n).Inv := by
  refine ⟨square_new n, fun a b => ?_⟩
  rw [read_bond_def, read_bond_def]
  unfold new
  rw [bondVal_mk, List.getElem?_replicate, List.getElem?_replicate]
  by_cases hA : a < n <;> by_cases hB : b < n <;>
    simp [hA, hB, List.getElem?_replicate]

theorem inv_new_filled (n : Nat) : (new_filled n).Inv := by
  refine ⟨square_new_filled n, fun a b => ?_⟩
  rw [read_bond_def, read_bond_def]
  unfold new_filled
  rw [bondVal_mk, List.getElem?_replicate, List.getElem?_replicate]
  by_cases hA : a < n <;> by_cases hB : b < n <;>
    simp [hA, hB, List.getElem?_replicate]

theorem inv_migrate {m other : SparseBondMatrix} (h : m.Inv) :
    (m.migrate other).Inv := by
  unfold migrate
  induction List.range other.len generalizing m with
  | nil => exact h
  | cons r t ih =>
    rw [List.foldl_cons]
    apply ih
    exact inv_foldl (fun _ _ => r) (fun _ q => q)
      (fun acc q => (other.read_bond r q).or (acc.read_bond r q)) _ m h

theorem len_offset (m : SparseBondMatrix) (n : Nat) :
    (m.offset n).len = n + m.len := by
  unfold offset
  simp only [bondLen_mk, List.length_append, List.length_replicate, List.length_map, bondLen_def]

theorem square_offset {m : SparseBondMatrix} (hm : m.Square) (n : Nat) :
    (m.offset n).Square := by
  intro row hrow
  rw [len_offset]
  unfold offset at hrow
  simp only [bondVal_mk, List.mem_append, List.mem_map] at hrow
  rcases hrow with hrow | ⟨r, hr, rfl⟩
  · rw [List.eq_of_mem_replicate hrow, List.length_replicate]
  · rw [List.length_append, List.length_replicate, hm r hr]

theorem read_offset (m : SparseBondMatrix) (n a b : Nat) :
    (m.offset n).read_bond a b =
      if a < n ∨ b < n then none else m.read_bond (a - n) (b - n) := by
  unfold offset
  rw [read_bond_def, bondVal_mk, List.getElem?_append]
  simp only [List.length_replicate]
  by_cases hA : a < n
  · rw [if_pos hA, List.getElem?_replicate, if_pos hA]
    simp only [Option.some_bind]
    rw [List.getElem?_replicate]
    rw [if_pos (Or.inl hA)]
    split <;> rfl
  · rw [if_neg hA, List.getElem?_map]
    cases hv : m.val[a - n]? with
    | none =>
      have : m.read_bond (a - n) (b - n) = none := by
        rw [read_bond_def, hv]
        rfl
      simp only [Option.map_none', Option.none_bind]
      by_cases hB : b < n
      · rw [if_pos (Or.inr hB)]
        rfl
      · rw [if_neg (by tauto), this]
        rfl
    | some row =>
      simp only [Option.map_some', Option.some_bind]
      rw [List.getElem?_append]
      simp only [List.length_replicate]
      by_cases hB : b < n
      · rw [if_pos hB, List.getElem?_replicate, if_pos hB, if_pos (Or.inr hB)]
        rfl
      · rw [if_neg hB, if_neg (by tauto), read_bond_def, hv]
        rfl

theorem inv_offset {m : SparseBondMatrix} (h : m.Inv) (n : Nat) :
    (m.offset n).Inv := by
  refine ⟨square_offset h.1 n, fun a b => ?_⟩
  rw [read_offset, read_offset]
  by_cases hc : a < n ∨ b < n
  · rw [if_pos hc, if_pos (by tauto)]
  · rw [if_neg hc, if_neg (by tauto), h.2]

theorem inv_ofBonds (bonds : List ((Nat × Nat) × ℚ)) : (ofBonds bonds).Inv := by
  unfold ofBonds
  exact inv_foldl (fun _ p => p.1.1) (fun _ p => p.1.2) (fun _ p => some p.2)
    bonds _ (inv_new _)

theorem reachable_inv {m : SparseBondMatrix} (h : m.Reachable) : m.Inv := by
  induction h with
  | new n => exact inv_new n
  | new_filled n => exact inv_new_filled n
  | set_bond a b bond _ ih => exact inv_set_bond ih a b bond
  | migrate _ _ ih₁ _ => exact inv_migrate ih₁
  | offset n _ ih => exact inv_offset ih n
  | ofBonds bonds => exact inv_ofBonds bonds

/-- Reading the freshly wired row through a fold of `set_bond`s along an
enumerated cell list: positions in the written window read the snapshot
cell, positions outside read as before. -/
theorem wire_go (e L : Nat) : ∀ (ns : List (Option ℚ)) (t : Nat) (acc : SparseBondMatrix),
    acc.Square → acc.len = L → e < L → t + ns.length ≤ L →
    ∀ j, ((List.enumFrom t ns).foldl (fun a p => a.set_bond e p.1 p.2) acc).read_bond e j =
      if t ≤ j ∧ j < t + ns.length then ns.getD (j - t) none
      else acc.read_bond e j := by
  intro ns
  induction ns with
  | nil =>
    intro t acc _ _ _ _ j
    rw [if_neg (by simp only [List.length_nil]; omega)]
    rfl
  | cons c rest ih =>
    intro t acc hsq hLen he hfit j
    have ht : t < L := by simp only [List.length_cons] at hfit; omega
    have hsq' : (acc.set_bond e t c).Square := square_set_bond hsq e t c
    have hLen' : (acc.set_bond e t c).len = L := by
      rw [len_set_bond, hLen]
      omega
    rw [show List.enumFrom t (c :: rest) = (t, c) :: List.enumFrom (t + 1) rest from rfl,
      List.foldl_cons,
      ih (t + 1) (acc.set_bond e t c) hsq' hLen' he
        (by simp only [List.length_cons] at hfit; omega) j]
    by_cases hj1 : t + 1 ≤ j ∧ j < t + 1 + rest.length
    · rw [if_pos hj1, if_pos (by simp only [List.length_cons]; omega),
        show j - t = (j - (t + 1)) + 1 by omega, List.getD_cons_succ]
    · rw [if_neg hj1, read_set_bond hsq]
      by_cases hjt : j = t
      · subst hjt
        rw [if_pos (Or.inl ⟨rfl, rfl⟩), if_pos (by simp only [List.length_cons]; omega),
          Nat.sub_self, List.getD_cons_zero]
      · rw [if_neg (by
            rintro (⟨h1, h2⟩ | ⟨h1, h2⟩)
            · exact hjt h2
            · exact hjt (h2.trans h1)),
          if_neg (by simp only [List.length_cons]; omega)]

end SparseBondMatrix

/-- C6: every bond matrix reachable through the public operations reads
symmetrically: `read_bond a b = read_bond b a`. -/
theorem reachable_read_bond_symm (m : SparseBondMatrix) (h : m.Reachable) (a b : Nat) :
    m.read_bond a b = m.read_bond b a :=
  (SparseBondMatrix.reachable_inv h).2 a b

theorem reachable_read_bond_symm_witness :
    ((SparseBondMatrix.new 2).set_bond 0 1 (some 1)).read_bond 0 1 =
      ((SparseBondMatrix.new 2).set_bond 0 1 (some 1)).read_bond 1 0 :=
  reachable_read_bond_symm _
    (SparseBondMatrix.Reachable.set_bond 0 1 (some 1) (SparseBondMatrix.Reachable.new 2)) 0 1

/-- C3: after the bond-wiring loop of `Substituent::generate_layer`, the
entry row reads, column for column, exactly what the snapshotted `center`
(post-offset `on_body`) row read before — bonds are carried over to the same
columns with their orders preserved, and no other bond order appears on the
entry row.  The loop enumerates the full neighbor row, so the enumeration
index coincides with the sparse column index. -/
theorem wire_entry_bonds_spec (m : SparseBondMatrix) (entry center : Nat)
    (hm : m.Square) (hc : center < m.len) (he : entry < m.len) (j : Nat) :
    (m.wire_entry_bonds entry center).read_bond entry j = m.read_bond center j := by
  obtain ⟨row, hv⟩ : ∃ row, m.val[center]? = some row := by
    cases hvv : m.val[center]? with
    | none =>
      exact absurd (List.getElem?_eq_none_iff.mp hvv)
        (by rw [SparseBondMatrix.bondLen_def] at hc; omega)
    | some row => exact ⟨row, rfl⟩
  have hrl : row.length = m.len := hm row (List.getElem?_mem hv)
  simp only [SparseBondMatrix.wire_entry_bonds, SparseBondMatrix.getD_eq_of_getElem? hv]
  rw [show row.enum = List.enumFrom 0 row from rfl,
    SparseBondMatrix.wire_go entry m.len row 0 m hm rfl he (by omega) j]
  by_cases hj : j < row.length
  · rw [if_pos ⟨Nat.zero_le _, by omega⟩, Nat.sub_zero,
      SparseBondMatrix.read_bond_of_row hv]
    cases hcell : row[j]? with
    | none => exact absurd (List.getElem?_eq_none_iff.mp hcell) (by omega)
    | some cell =>
      rw [List.getD_eq_getElem?_getD, hcell]
      rfl
  · rw [if_neg (by omega)]
    obtain ⟨rowE, hvE⟩ : ∃ rowE, m.val[entry]? = some rowE := by
      cases hvv : m.val[entry]? with
      | none =>
        exact absurd (List.getElem?_eq_none_iff.mp hvv)
          (by rw [SparseBondMatrix.bondLen_def] at he; omega)
      | some rowE => exact ⟨rowE, rfl⟩
    have hrlE : rowE.length = m.len := hm rowE (List.getElem?_mem hvE)
    rw [SparseBondMatrix.read_bond_of_row hv, SparseBondMatrix.read_bond_of_row hvE,
      List.getElem?_eq_none (by omega), List.getElem?_eq_none (by omega)]

theorem wire_entry_bonds_spec_witness :
    (SparseBondMatrix.mk [[none, none, none], [none, none, some 2], [none, some 2, none]]).Square ∧
    ((SparseBondMatrix.mk [[none, none, none], [none, none, some 2], [none, some 2, none]]).wire_entry_bonds 0 2).read_bond 0 1 =
      (SparseBondMatrix.mk [[none, none, none], [none, none, some 2], [none, some 2, none]]).read_bond 2 1 :=
  ⟨by decide,
    wire_entry_bonds_spec _ 0 2 (by decide) (by decide) (by decide) 1⟩

theorem to_from_continuous_round_trip_witness :
    ∃ k, SparseAtomList.to_continuous_index
        ⟨[some ⟨6, (0, 0, 0)⟩, none, some ⟨0, (0, 0, 0)⟩, some ⟨8, (0, 0, 0)⟩]⟩ 3 = some k ∧
      SparseAtomList.from_continuous_index
        ⟨[some ⟨6, (0, 0, 0)⟩, none, some ⟨0, (0, 0, 0)⟩, some ⟨8, (0, 0, 0)⟩]⟩ k = some 3 :=
  (to_from_continuous_round_trip
    ⟨[some ⟨6, (0, 0, 0)⟩, none, some ⟨0, (0, 0, 0)⟩, some ⟨8, (0, 0, 0)⟩]⟩ 3).2 (by decide)

theorem migrate_spec_witness :
    (SparseAtomList.migrate ⟨[some ⟨6, (0, 0, 0)⟩]⟩ ⟨[some ⟨200, (1, 0, 0)⟩]⟩).read_atom 0 =
      some ⟨200, (1, 0, 0)⟩ :=
  (SparseAtomList.migrate_spec ⟨[some ⟨6, (0, 0, 0)⟩]⟩ ⟨[some ⟨200, (1, 0, 0)⟩]⟩).2.2 0
    ⟨200, (1, 0, 0)⟩ (by decide)

theorem from_continuous_index_saturates_witness :
    SparseAtomList.numValid ⟨[some ⟨6, (0, 0, 0)⟩, none, some ⟨8, (0, 0, 0)⟩]⟩ ≤ 7 ∧
    SparseAtomList.from_continuous_index
        ⟨[some ⟨6, (0, 0, 0)⟩, none, some ⟨8, (0, 0, 0)⟩]⟩ 7 =
      SparseAtomList.lastValidIndex ⟨[some ⟨6, (0, 0, 0)⟩, none, some ⟨8, (0, 0, 0)⟩]⟩ :=
  ⟨by decide,
    (from_continuous_index_saturates ⟨[some ⟨6, (0, 0, 0)⟩, none, some ⟨8, (0, 0, 0)⟩]⟩ 7).1
      (by decide)⟩

theorem enumFrom_drop {σ : Type} :
    ∀ (l : List σ) (n k : Nat), (List.enumFrom n l).drop k = List.enumFrom (n + k) (l.drop k) := by
  intro l
  induction l with
  | nil => intro n k; simp
  | cons a t ih =>
    intro n k
    cases k with
    | zero => simp
    | succ k' =>
      rw [show List.enumFrom n (a :: t) = (n, a) :: List.enumFrom (n + 1) t from rfl,
        List.drop_succ_cons, List.drop_succ_cons, ih (n + 1) k',
        show n + (k' + 1) = n + 1 + k' by omega]

/-- C8 (counterexample): with the skip file present (content "2") but the
data file missing, startup does not fall back to a fresh run — it panics
with the `lme_workflow.chk.skip existed but lme_workflow.chk.data not found`
message. -/
theorem workflow_startup_counterexample :
    workflow_startup (7 : Nat) (some ("2")) (none : Option Nat) =
      .error ("lme_workflow.chk.skip existed but lme_workflow.chk.data not found") ∧
    workflow_startup (7 : Nat) (some ("2")) (none : Option Nat) ≠ .ok (0, 7) := by
  have h1 : workflow_startup (7 : Nat) (some ("2")) (none : Option Nat) =
      .error ("lme_workflow.chk.skip existed but lme_workflow.chk.data not found") := by
    rfl
  refine ⟨h1, ?_⟩
  rw [h1]
  simp

/-- C8 (amended): a missing skip file starts fresh with skip 0 regardless of
the data file; with the skip file present and parseable, a present data file
resumes with the recorded skip, while a missing data file panics; the
resumed run iterates exactly the steps from index `skip` on. -/
theorem workflow_startup_spec {W σ : Type} (newData d : W) (steps : List σ)
    (s : String) (n : Nat) (hn : parse_usize s = some n) :
    (∀ dataFile : Option W, workflow_startup newData none dataFile = .ok (0, newData)) ∧
    workflow_startup newData (some s) (some d) = .ok (n, d) ∧
    workflow_startup newData (some s) none =
      .error ("lme_workflow.chk.skip existed but lme_workflow.chk.data not found") ∧
    mainLoopSteps steps n = List.enumFrom n (steps.drop n) := by
  refine ⟨fun dataFile => rfl, ?_, ?_, ?_⟩
  · simp only [workflow_startup, load_checkpoint, hn]
    rfl
  · simp only [workflow_startup, load_checkpoint, hn]
    rfl
  · unfold mainLoopSteps
    rw [show steps.enum = List.enumFrom 0 steps from rfl, enumFrom_drop steps 0 n,
      Nat.zero_add]

theorem workflow_startup_spec_witness :
    workflow_startup (7 : Nat) (some ("2")) (some 9) = .ok (2, 9) :=
  (workflow_startup_spec 7 9 ([] : List Nat) "2" 2 (by decide)).2.1

/-- C10: when the runner reports `None` (as `OutputXYZ` does), `Step::execute`
leaves the workflow state unchanged apart from window naming: the current
window keeps the value it had when the runner ran (after a `from` redirect,
if any), the stacks are untouched, and the windows map is at most extended
with the step's name bound to that unchanged current window. -/
theorem step_execute_none_spec {Win : Type} (emptyW : Win) (extendW : Win → Win → Win)
    (stepFrom stepName : Option String) (index : Nat)
    (run : MoleculeLayer → Win → LayerStorage → Except String (RunnerOutputS Win × LayerStorage))
    (wd : WorkflowDataS Win) (cw : Win) (st' : LayerStorage)
    (hfrom : (match stepFrom with
      | none => some wd.current_window
      | some fr => wd.windows.lookup fr) = some cw)
    (hrun : run wd.base cw wd.layers = .ok (.NoOutput, st')) :
    step_execute emptyW extendW stepFrom stepName index run wd =
      .ok { wd with
        layers := st'
        current_window := cw
        windows := match stepName with
          | none => wd.windows
          | some name => winsert name cw wd.windows } := by
  cases stepFrom with
  | none =>
    rw [Option.some.injEq] at hfrom
    subst hfrom
    simp only [step_execute, hrun]
    cases stepName with
    | none => rfl
    | some name => rfl
  | some fr =>
    simp only at hfrom
    simp only [step_execute, hfrom, hrun]
    cases stepName with
    | none => rfl
    | some name => rfl

theorem step_execute_none_spec_witness :
    @step_execute (List Nat) [] (· ++ ·) none (some ("out")) 0
      (fun _ _ st => .ok (.NoOutput, st))
      ⟨⟨⟨[]⟩, ⟨[]⟩, [], [], ""⟩, ⟨[]⟩, [[]], [], [1, 2]⟩ =
      .ok ⟨⟨⟨[]⟩, ⟨[]⟩, [], [], ""⟩, ⟨[]⟩, [[]], winsert ("out") [1, 2] [], [1, 2]⟩ :=
  step_execute_none_spec [] (· ++ ·) none (some ("out")) 0
    (fun _ _ st => .ok (.NoOutput, st))
    ⟨⟨⟨[]⟩, ⟨[]⟩, [], [], ""⟩, ⟨[]⟩, [[]], [], [1, 2]⟩ [1, 2] ⟨[]⟩ rfl rfl

theorem Vec3.rotate_zero (k v : Vec3) : Vec3.rotate k 0 v = v := by
  obtain ⟨v1, v2, v3⟩ := v
  simp only [Vec3.rotate, Vec3.smul, Vec3.add, Vec3.cross, Vec3.dot, Real.cos_zero,
    Real.sin_zero, Prod.mk.injEq]
  refine ⟨?_, ?_, ?_⟩ <;> ring

theorem Vec3.norm_unit_x : Vec3.norm ((1 : ℝ), 0, 0) = 1 := by
  rw [Vec3.norm, Vec3.dot]
  norm_num

theorem Vec3.norm_two_x : Vec3.norm ((2 : ℝ), 0, 0) = 2 := by
  rw [Vec3.norm, Vec3.dot]
  rw [show (2 : ℝ) * 2 + 0 * 0 + 0 * 0 = 2 ^ 2 by norm_num]
  exact Real.sqrt_sq (by norm_num)

theorem substAxis_collinear_example :
    substAxis ((1 : ℝ), 0, 0) ((2 : ℝ), 0, 0) = (1, 0, 0) := by
  unfold substAxis
  rw [show Vec3.cross ((1 : ℝ), 0, 0) ((2 : ℝ), 0, 0) = ((0 : ℝ), 0, 0) from by
      simp [Vec3.cross],
    if_pos (show Vec3.norm ((0 : ℝ), 0, 0) = 0 from by simp [Vec3.norm, Vec3.dot])]
  unfold Vec3.normalize Vec3.e₁
  rw [Vec3.norm_unit_x]
  simp [Vec3.smul]

theorem substAngle_collinear_example :
    substAngle ((1 : ℝ), 0, 0) ((2 : ℝ), 0, 0) = 0 := by
  unfold substAngle
  rw [Vec3.norm_unit_x, Vec3.norm_two_x, if_neg (by norm_num),
    show Vec3.dot ((1 : ℝ), 0, 0) ((2 : ℝ), 0, 0) = 2 from by norm_num [Vec3.dot],
    show (2 : ℝ) / (2 * 1) = 1 by norm_num, Real.arccos_one]

/-- On the collinear configuration entry `(0,0,0)`, exit `(2,0,0)`,
direction `(1,0,0)`, on_body `(0,0,0)` the axis falls back to `x̂`, the
angle is `arccos 1 = 0`, and the transform is the pure translation by
`target_exit − direction`, carrying on_body to `(1,0,0)`. -/
theorem substTransform_collinear_example :
    substTransform ((0 : ℝ), 0, 0) ((2 : ℝ), 0, 0) ((1 : ℝ), 0, 0) ((0 : ℝ), 0, 0)
      ((0 : ℝ), 0, 0) = ((1 : ℝ), 0, 0) := by
  show Vec3.add (Vec3.add (Vec3.rotate
      (substAxis (Vec3.sub ((1 : ℝ), 0, 0) ((0 : ℝ), 0, 0))
        (Vec3.sub ((2 : ℝ), 0, 0) ((0 : ℝ), 0, 0)))
      (substAngle (Vec3.sub ((1 : ℝ), 0, 0) ((0 : ℝ), 0, 0))
        (Vec3.sub ((2 : ℝ), 0, 0) ((0 : ℝ), 0, 0)))
      (Vec3.sub ((0 : ℝ), 0, 0) ((1 : ℝ), 0, 0))) ((1 : ℝ), 0, 0))
      (Vec3.sub ((2 : ℝ), 0, 0) ((1 : ℝ), 0, 0)) = ((1 : ℝ), 0, 0)
  rw [show Vec3.sub ((1 : ℝ), 0, 0) ((0 : ℝ), 0, 0) = ((1 : ℝ), 0, 0) from by
      simp [Vec3.sub],
    show Vec3.sub ((2 : ℝ), 0, 0) ((0 : ℝ), 0, 0) = ((2 : ℝ), 0, 0) from by
      simp [Vec3.sub],
    substAxis_collinear_example, substAngle_collinear_example, Vec3.rotate_zero]
  simp only [Vec3.add, Vec3.sub, Prod.mk.injEq]
  norm_num

/-- C7 (counterexample): with target entry `(0,0,0)`, target exit `(2,0,0)`,
substituent on_body `(0,0,0)` and direction `(1,0,0)` — all four designated
atoms present — the transformed on_body position is `(1,0,0)`, a full unit
away from the entry position, not within `1e-9` of it. -/
theorem substituent_on_body_misses_entry :
    substTransform ((0 : ℝ), 0, 0) ((2 : ℝ), 0, 0) ((1 : ℝ), 0, 0) ((0 : ℝ), 0, 0)
        ((0 : ℝ), 0, 0) = ((1 : ℝ), 0, 0) ∧
    ¬ Vec3.norm (Vec3.sub (substTransform ((0 : ℝ), 0, 0) ((2 : ℝ), 0, 0) ((1 : ℝ), 0, 0)
        ((0 : ℝ), 0, 0) ((0 : ℝ), 0, 0)) ((0 : ℝ), 0, 0)) ≤ 1 / 10 ^ 9 := by
  refine ⟨substTransform_collinear_example, ?_⟩
  rw [substTransform_collinear_example,
    show Vec3.sub ((1 : ℝ), 0, 0) ((0 : ℝ), 0, 0) = ((1 : ℝ), 0, 0) from by
      simp [Vec3.sub],
    Vec3.norm_unit_x]
  norm_num

/-- C7 (amended): the rigid transform of `Substituent::generate_layer`
pivots about the direction atom, so it is the substituent's direction
position that lands exactly on the target exit position; the transformed
on_body atom (the atom then written at the entry index) in general does
not land on the entry position. -/
theorem substTransform_direction_lands_on_exit (target_entry target_exit sd so : Vec3) :
    substTransform target_entry target_exit sd so sd = target_exit := by
  obtain ⟨e1, e2, e3⟩ := target_exit
  obtain ⟨d1, d2, d3⟩ := sd
  simp only [substTransform, Vec3.sub, Vec3.add, Vec3.rotate, Vec3.smul, Vec3.cross, Vec3.dot,
    Prod.mk.injEq]
  refine ⟨?_, ?_, ?_⟩ <;> ring
